import Mathlib

/-!
Verification of the categorization core of the expense analyzer
(`src/core/map.py`) against its natural-language specification.

The Python functions are shallowly embedded as executable Lean
definitions.  Python floats are modelled by `ℚ` (all confidence
arithmetic in the source consists of a handful of exact decimal
constants, multiplications and `min`, and no claim depends on binary
rounding).  Python strings are modelled by `String` / `List Char`;
`str.lower()` is modelled with `Char.toLower`, which agrees with
Python on ASCII (the source's cased data) and is the identity on
Hebrew, as Python is.  The rapidfuzz similarity scorer and the
OpenAI chat completion are third-party boundaries and enter as
parameters (`scorer`, `llmResponse`); everything around them is
translated from the source.
-/

namespace ExpenseMap

/-- Kernel-computable addition on `ℚ` (the library's `Rat.add` is
`@[irreducible]`; this reducible form lets concrete runs of the model
be checked by `decide`).  `qAdd_eq` below identifies it with `+`. -/
def qAdd (a b : ℚ) : ℚ :=
  mkRat (a.num * b.den + b.num * a.den) (a.den * b.den)

/-- Kernel-computable multiplication on `ℚ`; `qMul_eq` identifies it
with `*`. -/
def qMul (a b : ℚ) : ℚ :=
  mkRat (a.num * b.num) (a.den * b.den)

/-- Kernel-computable division of a rational by a natural number;
`qDivNat_eq` identifies it with `/`. -/
def qDivNat (a : ℚ) (n : Nat) : ℚ :=
  mkRat a.num (a.den * n)

/-- Whitespace as recognised by Python's `str.split()` / `str.strip()`
for the ASCII range: space, tab, newline, carriage return, vertical
tab, form feed. -/
def isWs (c : Char) : Bool :=
  c = ' ' || c = '\t' || c = '\n' || c = '\r' || c = '\x0b' || c = '\x0c'

/-- Model of Python `str.lower()` (`description.lower()` in the source):
character-wise ASCII lowering. -/
def pyLower (l : List Char) : List Char :=
  l.map Char.toLower

/-- String-level wrapper for `pyLower`. -/
def pyLowerStr (s : String) : String :=
  ⟨pyLower s.data⟩

/-- Scanner for Python `str.replace(pat, '')`: walk the list one
character at a time; `skip` counts characters still to drop from a
match already begun.  At `skip = 0`, a position where `pat` matches
starts dropping the next `pat.length` characters (non-overlapping
occurrences, exactly Python's left-to-right scan).  Structural
recursion on the list keeps the definition kernel-computable. -/
def removeAllGo (pat : List Char) : Nat → List Char → List Char
  | _, [] => []
  | skip + 1, _ :: cs => removeAllGo pat skip cs
  | 0, c :: cs =>
    if pat.isPrefixOf (c :: cs) then removeAllGo pat (pat.length - 1) cs
    else c :: removeAllGo pat 0 cs

/-- Model of Python `s.replace(pat, '')` (delete every occurrence of a
nonempty `pat`). -/
def removeAll (pat l : List Char) : List Char :=
  removeAllGo pat 0 l

/-- The legal-entity suffix list of `normalize_vendor_name`
(`src/core/map.py` line 42), in source order. -/
def suffixes : List String :=
  ["בע\"מ", "בעמ", "בע" ++ String.mk ['\'', '\''] ++ "מ",
   "ltd", "inc", "llc", "corp", "limited", "corporation"]

/-- Sequential application of `str.replace(suffix, '')` for every entry
of `suffixes`, in order (the `for suffix in suffixes` loop). -/
def removeSuffixes (l : List Char) : List Char :=
  suffixes.foldl (fun d s => removeAll s.data d) l

/-- Accumulator-based model of Python `str.split()` (split on runs of
whitespace, discarding empty pieces).  `acc` holds the current word in
reverse. -/
def splitWsAux (acc : List Char) : List Char → List (List Char)
  | [] => if acc.isEmpty then [] else [acc.reverse]
  | c :: cs =>
    if isWs c then
      if acc.isEmpty then splitWsAux [] cs else acc.reverse :: splitWsAux [] cs
    else
      splitWsAux (c :: acc) cs

/-- Model of Python `str.split()`. -/
def splitWs (l : List Char) : List (List Char) :=
  splitWsAux [] l

/-- Model of Python `' '.join(ws)`. -/
def joinSpace : List (List Char) → List Char
  | [] => []
  | [w] => w
  | w :: ws => w ++ ' ' :: joinSpace ws

/-- String-level `str.split()`. -/
def splitWsStr (s : String) : List String :=
  (splitWs s.data).map fun w => ⟨w⟩

/-- String-level `' '.join`. -/
def joinWordsStr (ws : List String) : String :=
  ⟨joinSpace (ws.map String.data)⟩

/-- Embedding of `normalize_vendor_name` (`src/core/map.py` lines
39-49): lower-case, delete every legal-entity suffix occurrence in
list order, then collapse whitespace via `' '.join(s.split())`. -/
def normalize_vendor_name (description : String) : String :=
  ⟨joinSpace (splitWs (removeSuffixes (pyLower description.data)))⟩

/-- Decidable model of Python's substring test `pat in s`
(contiguous infix; the empty pattern matches everything). -/
def isInfixB (pat : List Char) : List Char → Bool
  | [] => pat.isEmpty
  | c :: t => pat.isPrefixOf (c :: t) || isInfixB pat t

/-- Model of Python `str.strip()` (no arguments): drop whitespace from
both ends. -/
def pyStrip (l : List Char) : List Char :=
  ((l.dropWhile isWs).reverse.dropWhile isWs).reverse

/-- String-level `str.strip()`. -/
def pyStripStr (s : String) : String :=
  ⟨pyStrip s.data⟩

/-- Model of Python `str.strip(chars)`: drop characters of `cs` from
both ends. -/
def stripChars (cs : List Char) (l : List Char) : List Char :=
  ((l.dropWhile cs.contains).reverse.dropWhile cs.contains).reverse

/-- Python truthiness of an `Optional[str]` value: `None` and the empty
string are falsy. -/
def truthyOpt : Option String → Bool
  | none => false
  | some s => !s.isEmpty

/-- The `MappingRow` record of `src/core/model.py` (a learned
keyword-to-category rule). -/
structure MappingRow where
  keyword : String
  category : String
deriving DecidableEq, Repr

/-- The `MatchResult` record produced by every matcher and by the
arbitration engine (spec section 3; `src/core/model.py`).  `strategy`
is the source's string tag, `confidence` a `ℚ` modelling the Python
float. -/
structure MatchResult where
  category : Option String
  strategy : String
  confidence : ℚ
  keyword_used : Option String
  note : String
deriving DecidableEq, Repr

/-- Per-rule score computed by the loop body of `keyword_match`
(`src/core/map.py` lines 61-86).  `kw` is the already lower-cased
keyword (`mapping.keyword.lower()`); `descLower` and `descWords` are
the lower-cased description and its word set.  An exclusion rule whose
root occurs in the description is skipped by `continue`, i.e. it
contributes score 0; note the `continue` leaves the loop over the
remaining rules running. -/
def ruleScore (descLower : String) (descWords : List String) (kw : String) : ℚ :=
  if kw.data.head? = some '!' ∧ isInfixB (kw.data.drop 1) descLower.data = true then 0
  else if kw.data.contains ' ' = true then
    (if isInfixB kw.data descLower.data = true then
      min (qAdd (mkRat 95 100) (qMul ((splitWsStr kw).length : ℚ) (mkRat 1 100)))
        (mkRat 98 100)
    else 0)
  else if descWords.contains kw = true then mkRat 95 100
  else if isInfixB kw.data descLower.data = true ∧ 4 < kw.data.length then mkRat 85 100
  else 0

/-- Embedding of `keyword_match` (`src/core/map.py` lines 52-102):
track the best-scoring rule (strictly better score replaces, so the
first-encountered rule wins ties).  The note strings with embedded
`%.2f` formatting are abbreviated; no claim depends on them. -/
def keyword_match (description : String) (mappings : List MappingRow) : MatchResult :=
  let descLower := pyLowerStr description
  let descWords := splitWsStr descLower
  match mappings.foldl
      (fun (acc : Option MappingRow × ℚ) m =>
        let score := ruleScore descLower descWords (pyLowerStr m.keyword)
        if acc.2 < score then (some m, score) else acc)
      ((none : Option MappingRow), (0 : ℚ)) with
  | (some m, s) =>
    ⟨some m.category, "keyword", s, some m.keyword, "Keyword match: " ++ m.keyword⟩
  | (none, _) =>
    ⟨none, "keyword", 0, none, "No keyword matches found"⟩

/-- Accumulator loop of rapidfuzz `process.extractOne`: keep the
highest-scoring key whose score clears `cutoff`; on equal scores the
first key wins. -/
def extractOneAux (scorer : String → String → ℚ) (q : String) (cutoff : ℚ)
    (acc : Option (String × ℚ)) : List String → Option (String × ℚ)
  | [] => acc
  | k :: ks =>
    let s := scorer q k
    let acc' :=
      if cutoff ≤ s then
        match acc with
        | none => some (k, s)
        | some (k0, s0) => if s0 < s then some (k, s) else some (k0, s0)
      else acc
    extractOneAux scorer q cutoff acc' ks

/-- Model of `process.extractOne(q, keys, scorer=…, score_cutoff=cutoff)`
(`src/core/map.py` lines 145-150): `none` when no key clears the
cutoff.  The scorer (rapidfuzz `fuzz.token_set_ratio`, a third-party
library) is a parameter. -/
def extractOne (scorer : String → String → ℚ) (q : String) (cutoff : ℚ)
    (keys : List String) : Option (String × ℚ) :=
  extractOneAux scorer q cutoff none keys

/-- The candidate windows of `fuzzy_match` (`src/core/map.py` lines
122-134): first 2, 3, 4 words, `words[1:4]`, and the whole normalized
description when it has at most 3 words. -/
def candidatesOf (description : String) : List String :=
  let words := splitWsStr (normalize_vendor_name description)
  (if 2 ≤ words.length then [joinWordsStr (words.take 2)] else []) ++
  (if 3 ≤ words.length then [joinWordsStr (words.take 3)] else []) ++
  (if 4 ≤ words.length then
    [joinWordsStr (words.take 4), joinWordsStr ((words.drop 1).take 3)] else []) ++
  (if words.length ≤ 3 then [normalize_vendor_name description] else [])

/-- The candidate loop of `fuzzy_match` (lines 140-155): skip
candidates that are blank after stripping, and keep the strictly best
`(vendor, score)` over all candidates (`best_score` starts at `0`). -/
def fuzzyBestAux (scorer : String → String → ℚ) (threshold : ℚ) (keys : List String)
    (acc : Option (String × ℚ)) : List String → Option (String × ℚ)
  | [] => acc
  | cand :: cs =>
    let acc' :=
      if (pyStrip cand.data).isEmpty then acc
      else
        match extractOne scorer cand threshold keys with
        | none => acc
        | some (k, s) =>
          if (match acc with | none => (0 : ℚ) | some p => p.2) < s then some (k, s)
          else acc
    fuzzyBestAux scorer threshold keys acc' cs

/-- Best `(vendor, score)` across all candidate windows, as computed by
`fuzzy_match` before building its result. -/
def fuzzyBest (description : String) (vendor_to_cat : List (String × String))
    (scorer : String → String → ℚ) (threshold : ℚ) : Option (String × ℚ) :=
  fuzzyBestAux scorer threshold (vendor_to_cat.map Prod.fst) none
    (candidatesOf description)

/-- Embedding of `fuzzy_match` (`src/core/map.py` lines 105-179).  The
vendor map is an association list in the dict's insertion order with
unique keys; the threshold (source type `int`, default 86) is taken as
`ℚ` since it is only compared against scores.  Note strings are
abbreviated. -/
def fuzzy_match (description : String) (vendor_to_cat : List (String × String))
    (scorer : String → String → ℚ) (threshold : ℚ) : MatchResult :=
  if vendor_to_cat.isEmpty then
    ⟨none, "fuzzy", 0, none, "No vendor mappings available"⟩
  else
    match fuzzyBest description vendor_to_cat scorer threshold with
    | some (v, s) =>
      let confidence := min (qDivNat s 100) (mkRat 9 10)
      let confidence :=
        if 95 ≤ s then min (qMul confidence (mkRat 105 100)) (mkRat 95 100)
        else confidence
      ⟨vendor_to_cat.lookup v, "fuzzy", confidence, some v, "Fuzzy match: " ++ v⟩
    | none =>
      ⟨none, "fuzzy", 0, none, "No fuzzy matches above threshold"⟩

/-- Embedding of `llm_match` (`src/core/map.py` lines 182-256).  The
network interaction is the parameter `response`: `Except.error e`
models any exception raised inside the `try` block (transport/service
failure with message `e`), `Except.ok content` the returned completion
text.  `settingsKey` is `settings.openai_api_key`, `llmConfidence` is
`settings.llm_confidence`.  The prompt construction (description,
amount, date context) only feeds the remote call and is absorbed by
`response`. -/
def llm_match (categories : List String) (api_key settingsKey : Option String)
    (response : Except String String) (llmConfidence : ℚ) : MatchResult :=
  let key := if truthyOpt api_key then api_key else settingsKey
  if truthyOpt key = false then
    ⟨none, "llm", 0, none, "No API key provided for LLM"⟩
  else
    match response with
    | Except.error e => ⟨none, "llm", 0, none, "LLM error: " ++ e⟩
    | Except.ok content =>
      let suggested := pyStripStr content
      if suggested ∈ categories then
        ⟨some suggested, "llm", llmConfidence, none, "LLM suggestion: " ++ suggested⟩
      else
        ⟨none, "llm", 0, none, "LLM returned invalid category: " ++ suggested⟩

/-- The truthy proposed categories of a result list
(`[r.category for r in results if r.category]`, line 285; Python
truthiness drops both `None` and the empty string). -/
def proposals (rs : List MatchResult) : List String :=
  rs.filterMap fun r =>
    match r.category with
    | some s => if s = "" then none else some s
    | none => none

/-- First-occurrence deduplication (the key order of a
`collections.Counter`, which preserves insertion order). -/
def dedupFirstAux (seen : List String) : List String → List String
  | [] => []
  | a :: l =>
    if seen.contains a then dedupFirstAux seen l
    else a :: dedupFirstAux (a :: seen) l

/-- Keys of `Counter(l)` in insertion order. -/
def dedupFirst (l : List String) : List String :=
  dedupFirstAux [] l

/-- Model of `Counter(l).most_common(1)[0]`: the first-inserted key of
maximal multiplicity, with its count (`Counter.most_common` sorts
stably by count, so ties keep insertion order). -/
def mostCommon1 (l : List String) : Option (String × Nat) :=
  (dedupFirst l).foldl
    (fun acc k =>
      match acc with
      | none => some (k, l.count k)
      | some (k0, n0) => if n0 < l.count k then some (k, l.count k) else some (k0, n0))
    none

/-- The agreement-boost step of `agent_choose_category`
(`src/core/map.py` lines 284-293): if at least two results propose the
same (truthy) category, and it is the most common proposal, multiply
the confidence of every result carrying that category by 1.2, capped
at 0.98. -/
def boostResults (rs : List MatchResult) : List MatchResult :=
  let sugg := proposals rs
  if 2 ≤ sugg.length then
    match mostCommon1 sugg with
    | some (c, n) =>
      if 2 ≤ n then
        rs.map fun r =>
          if r.category = some c then
            { r with confidence := min (qMul r.confidence (mkRat 12 10)) (mkRat 98 100) }
          else r
      else rs
    | none => rs
  else rs

/-- Comparison step of Python `max(results, key=lambda r: r.confidence)`:
a strictly larger confidence replaces the running best, so the first
result of maximal confidence wins. -/
def pickBest (b x : MatchResult) : MatchResult :=
  if b.confidence < x.confidence then x else b

/-- Model of Python `max(results, key=lambda r: r.confidence)` on a
nonempty list. -/
def bestOf : List MatchResult → MatchResult
  | [] => ⟨none, "none", 0, none, ""⟩
  | r :: rs => rs.foldl pickBest r

/-- The low-confidence refusal result of `agent_choose_category`
(lines 300-305). -/
def noneResult : MatchResult :=
  ⟨none, "none", 0, none,
   "No high-confidence match found (all strategies below 0.7 threshold)"⟩

/-- The tier results collected by `agent_choose_category` (lines
272-282): keyword and fuzzy always, the LLM tier only when
`llm_api_key` is truthy. -/
def agentRawResults (description : String) (mappings : List MappingRow)
    (vendor_to_cat : List (String × String)) (categories : List String)
    (llm_api_key settingsKey : Option String) (llmResponse : Except String String)
    (llmConfidence : ℚ) (scorer : String → String → ℚ) (fuzzy_threshold : ℚ) :
    List MatchResult :=
  [keyword_match description mappings,
   fuzzy_match description vendor_to_cat scorer fuzzy_threshold] ++
  (if truthyOpt llm_api_key then
    [llm_match categories llm_api_key settingsKey llmResponse llmConfidence]
  else [])

/-- The result pool of `agent_choose_category` after the agreement
boost has been applied (state of `results` at line 295). -/
def arbitrationPool (description : String) (mappings : List MappingRow)
    (vendor_to_cat : List (String × String)) (categories : List String)
    (llm_api_key settingsKey : Option String) (llmResponse : Except String String)
    (llmConfidence : ℚ) (scorer : String → String → ℚ) (fuzzy_threshold : ℚ) :
    List MatchResult :=
  boostResults (agentRawResults description mappings vendor_to_cat categories
    llm_api_key settingsKey llmResponse llmConfidence scorer fuzzy_threshold)

/-- Embedding of `agent_choose_category` (`src/core/map.py` lines
259-307): collect tier results, apply the agreement boost, take the
highest-confidence result (first wins ties), and refuse with
`noneResult` when its confidence is below 0.7. -/
def agent_choose_category (description : String) (mappings : List MappingRow)
    (vendor_to_cat : List (String × String)) (categories : List String)
    (llm_api_key settingsKey : Option String) (llmResponse : Except String String)
    (llmConfidence : ℚ) (scorer : String → String → ℚ) (fuzzy_threshold : ℚ) :
    MatchResult :=
  let best := bestOf (arbitrationPool description mappings vendor_to_cat categories
    llm_api_key settingsKey llmResponse llmConfidence scorer fuzzy_threshold)
  if best.confidence < mkRat 7 10 then noneResult else best

/-- The learner's stop-word set (`src/core/map.py` lines 373-382),
flattened to a list (only membership is used). -/
def stopwords : List String :=
  ["של", "את", "על", "עם", "אל", "מן", "כי", "אם", "לא", "או", "גם", "רק",
   "the", "and", "for", "with", "from", "ltd", "inc", "llc", "corp", "limited",
   "בע\"מ", "בעמ", "בע" ++ String.mk ['\'', '\''] ++ "מ", "חפ", "עמ", "ושות",
   "company", "corporation", "group", "international"]

/-- The punctuation set of `word.strip('.,;:!?()[]{}"\'-')` in the
learner (line 390). -/
def punctChars : List Char :=
  ['.', ',', ';', ':', '!', '?', '(', ')', '[', ']',
   Char.ofNat 123, Char.ofNat 125, '\"', '\'', '-']

/-- The meaningful-vendor-word extraction of `learn_from_user_feedback`
(lines 386-394): scan the first 5 lower-cased words, strip punctuation,
keep words longer than 2 characters that are not stop words, stop
after 3. -/
def vendorWords (words : List String) : List String :=
  (words.take 5).foldl
    (fun acc w =>
      if 3 ≤ acc.length then acc
      else
        let wc : String := ⟨stripChars punctChars w.data⟩
        if 2 < wc.data.length ∧ ¬ stopwords.contains wc then acc ++ [wc]
        else acc)
    []

/-- Append a rule unless a rule with the same keyword is already
present (the `if not any(m.keyword == kw for m in mappings)` pattern of
the learner). -/
def addIfAbsent (ms : List MappingRow) (kw category : String) : List MappingRow :=
  if ms.any fun m => m.keyword = kw then ms else ms ++ [⟨kw, category⟩]

/-- Python dict insertion `d[k] = v` on an association list: overwrite
in place, or append a new binding. -/
def dictInsert (d : List (String × String)) (k v : String) : List (String × String) :=
  if (d.lookup k).isSome then d.map fun p => if p.1 = k then (k, v) else p
  else d ++ [(k, v)]

/-- The rule-list updates of `learn_from_user_feedback` (lines
396-417), as a function of the extracted vendor words: add the 2-word
phrase if absent, then the 3-word phrase if absent, then the first
vendor word longer than 5 characters if absent (the single-word loop
`break`s at the first long word whether or not it was added). -/
def ruleChain (vw : List String) (category : String) (mappings : List MappingRow) :
    List MappingRow :=
  let ms1 :=
    if 2 ≤ vw.length then addIfAbsent mappings (joinWordsStr (vw.take 2)) category
    else mappings
  let ms2 :=
    if 3 ≤ vw.length then addIfAbsent ms1 (joinWordsStr (vw.take 3)) category
    else ms1
  match vw.find? (fun w => 5 < w.data.length) with
  | some w => addIfAbsent ms2 w category
  | none => ms2

/-- The vendor-map updates of `learn_from_user_feedback` (lines
419-427): map the raw first-3-word phrase, and its normalized form when
different, to the confirmed category. -/
def vendorMapChain (words : List String) (category : String)
    (vendor_to_cat : List (String × String)) : List (String × String) :=
  let vendor_key := joinWordsStr (words.take 3)
  let vm1 :=
    if vendor_key.isEmpty then vendor_to_cat
    else dictInsert vendor_to_cat vendor_key category
  let normalized_key := normalize_vendor_name vendor_key
  if ¬ normalized_key.isEmpty ∧ normalized_key ≠ vendor_key then
    dictInsert vm1 normalized_key category
  else vm1

/-- Embedding of `learn_from_user_feedback` (`src/core/map.py` lines
361-431), as a pure function returning the updated rule list and
vendor map.  The concluding `save_mapping` call persists the rule list
and is modelled separately by `save_mapping` below. -/
def learn_from_user_feedback (description category : String)
    (mappings : List MappingRow) (vendor_to_cat : List (String × String)) :
    List MappingRow × List (String × String) :=
  let words := splitWsStr (pyLowerStr description)
  (ruleChain (vendorWords words) category mappings,
   vendorMapChain words category vendor_to_cat)

/-- First-occurrence row deduplication, the semantics of pandas
`DataFrame.drop_duplicates()` (keep the first of equal rows, preserve
order): realised as reversed last-occurrence `dedup`. -/
def dropDuplicates (l : List (String × String)) : List (String × String) :=
  (l.reverse.dedup).reverse

/-- Embedding of `save_mapping` (`src/core/map.py` lines 30-36),
returning the record set written to the store: the `(keyword,
category)` rows, deduplicated by `df.drop_duplicates()` (which compares
whole rows, i.e. both columns). -/
def save_mapping (mappings : List MappingRow) : List (String × String) :=
  dropDuplicates (mappings.map fun m => (m.keyword, m.category))

/-! ## General lemmas -/

/-- The computable addition agrees with the library addition. -/
theorem qAdd_eq (a b : ℚ) : qAdd a b = a + b := by
  have ha : ((a.den : ℚ)) ≠ 0 := Nat.cast_ne_zero.mpr a.den_nz
  have hb : ((b.den : ℚ)) ≠ 0 := Nat.cast_ne_zero.mpr b.den_nz
  rw [qAdd, Rat.mkRat_eq_div]
  push_cast
  conv_rhs => rw [← Rat.num_div_den a, ← Rat.num_div_den b]
  rw [div_add_div _ _ ha hb]
  congr 1
  ring

/-- The computable multiplication agrees with the library
multiplication. -/
theorem qMul_eq (a b : ℚ) : qMul a b = a * b := by
  rw [qMul, Rat.mkRat_eq_div]
  push_cast
  rw [← div_mul_div_comm, Rat.num_div_den, Rat.num_div_den]

/-- The computable division by a natural agrees with the library
division. -/
theorem qDivNat_eq (a : ℚ) (n : Nat) : qDivNat a n = a / n := by
  rw [qDivNat, Rat.mkRat_eq_div]
  push_cast
  rw [← div_div, Rat.num_div_den]

/-- Decimal-literal value of `mkRat 7 10`. -/
theorem mk07 : mkRat 7 10 = (0.7 : ℚ) := by rw [Rat.mkRat_eq_div]; norm_num

/-- Decimal-literal value of `mkRat 9 10`. -/
theorem mk09 : mkRat 9 10 = (0.9 : ℚ) := by rw [Rat.mkRat_eq_div]; norm_num

/-- Decimal-literal value of `mkRat 95 100`. -/
theorem mk095 : mkRat 95 100 = (0.95 : ℚ) := by rw [Rat.mkRat_eq_div]; norm_num

/-- Decimal-literal value of `mkRat 98 100`. -/
theorem mk098 : mkRat 98 100 = (0.98 : ℚ) := by rw [Rat.mkRat_eq_div]; norm_num

/-- Decimal-literal value of `mkRat 85 100`. -/
theorem mk085 : mkRat 85 100 = (0.85 : ℚ) := by rw [Rat.mkRat_eq_div]; norm_num

/-- Decimal-literal value of `mkRat 1 100`. -/
theorem mk001 : mkRat 1 100 = (0.01 : ℚ) := by rw [Rat.mkRat_eq_div]; norm_num

/-- Decimal-literal value of `mkRat 105 100`. -/
theorem mk0105 : mkRat 105 100 = (1.05 : ℚ) := by rw [Rat.mkRat_eq_div]; norm_num

/-- Decimal-literal value of `mkRat 12 10`. -/
theorem mk12 : mkRat 12 10 = (1.2 : ℚ) := by rw [Rat.mkRat_eq_div]; norm_num

/-- `Char.toLower` is idempotent (lowering an already lower-cased
character is the identity). -/
theorem toLower_idem (c : Char) : c.toLower.toLower = c.toLower := by
  have hofnat : ∀ n : Nat, n < 55296 → (Char.ofNat n).toNat = n := by
    intro n hn
    rw [Char.ofNat, dif_pos (Or.inl hn : Nat.isValidChar n)]
    rfl
  by_cases h : c.toNat ≥ 65 ∧ c.toNat ≤ 90
  · have h1 : c.toLower = Char.ofNat (c.toNat + 32) := by
      simp only [Char.toLower]
      rw [if_pos h]
    have h2 : (Char.ofNat (c.toNat + 32)).toNat = c.toNat + 32 :=
      hofnat _ (by omega)
    rw [h1]
    simp only [Char.toLower]
    rw [if_neg (by rw [h2]; omega)]
  · have h1 : c.toLower = c := by
      simp only [Char.toLower]
      rw [if_neg h]
    rw [h1, h1]

/-- A list whose elements are all fixed by `f` is fixed by `map f`. -/
theorem map_eq_self_of_fixed {α : Type} (f : α → α) :
    ∀ l : List α, (∀ c ∈ l, f c = c) → l.map f = l := by
  intro l
  induction l with
  | nil => intro _; rfl
  | cons a t ih =>
    intro h
    simp only [List.map_cons]
    rw [h a (by simp), ih fun c hc => h c (by simp [hc])]

/-- Characters surviving `removeAllGo` come from the input. -/
theorem removeAllGo_subset (pat : List Char) :
    ∀ (l : List Char) (skip : Nat) (c : Char), c ∈ removeAllGo pat skip l → c ∈ l := by
  intro l
  induction l with
  | nil =>
    intro skip c h
    cases skip <;> exact h
  | cons a t ih =>
    intro skip c h
    match skip with
    | n + 1 => exact List.mem_cons_of_mem a (ih n c h)
    | 0 =>
      rw [removeAllGo] at h
      split at h
      · exact List.mem_cons_of_mem a (ih _ c h)
      · rcases List.mem_cons.mp h with h1 | h1
        · exact h1 ▸ List.mem_cons_self a t
        · exact List.mem_cons_of_mem a (ih 0 c h1)

/-- Characters surviving the suffix-removal fold come from the input. -/
theorem removeSuffixesFold_subset :
    ∀ (pats : List String) (l : List Char) (c : Char),
      c ∈ pats.foldl (fun d s => removeAll s.data d) l → c ∈ l := by
  intro pats
  induction pats with
  | nil => intro l c h; exact h
  | cons p t ih =>
    intro l c h
    exact removeAllGo_subset _ _ _ _ (ih _ _ h)

/-- If `pat` occurs nowhere in `l`, deleting its occurrences does
nothing. -/
theorem removeAllGo_no_occurrence (pat : List Char) :
    ∀ l : List Char, isInfixB pat l = false → removeAllGo pat 0 l = l := by
  intro l
  induction l with
  | nil => intro _; rfl
  | cons a t ih =>
    intro h
    rw [isInfixB] at h
    rcases Bool.or_eq_false_iff.mp h with ⟨h1, h2⟩
    rw [removeAllGo, if_neg (by simp [h1]), ih h2]

/-- Characters of the words produced by `splitWsAux` come from the
input or the accumulator. -/
theorem splitWsAux_chars :
    ∀ (l acc : List Char) (w : List Char) (c : Char),
      w ∈ splitWsAux acc l → c ∈ w → c ∈ l ∨ c ∈ acc := by
  intro l
  induction l with
  | nil =>
    intro acc w c hw hc
    rw [splitWsAux] at hw
    split at hw
    · simp at hw
    · rcases List.mem_singleton.mp hw with rfl
      exact Or.inr (List.mem_reverse.mp hc)
  | cons a t ih =>
    intro acc w c hw hc
    rw [splitWsAux] at hw
    split at hw
    · split at hw
      · rcases ih [] w c hw hc with h | h
        · exact Or.inl (List.mem_cons_of_mem a h)
        · simp at h
      · rcases List.mem_cons.mp hw with rfl | hw2
        · exact Or.inr (List.mem_reverse.mp hc)
        · rcases ih [] w c hw2 hc with h | h
          · exact Or.inl (List.mem_cons_of_mem a h)
          · simp at h
    · rcases ih (a :: acc) w c hw hc with h | h
      · exact Or.inl (List.mem_cons_of_mem a h)
      · rcases List.mem_cons.mp h with rfl | h2
        · exact Or.inl (List.mem_cons_self c t)
        · exact Or.inr h2

/-- Characters of `joinSpace ws` are characters of some word or the
inserted space. -/
theorem joinSpace_chars :
    ∀ (ws : List (List Char)) (c : Char),
      c ∈ joinSpace ws → (∃ w ∈ ws, c ∈ w) ∨ c = ' ' := by
  intro ws
  induction ws with
  | nil => intro c h; simp [joinSpace] at h
  | cons w t ih =>
    intro c h
    match t with
    | [] => exact Or.inl ⟨w, by simp, h⟩
    | b :: t' =>
      have hj : joinSpace (w :: b :: t') = w ++ ' ' :: joinSpace (b :: t') := rfl
      rw [hj] at h
      rcases List.mem_append.mp h with h1 | h1
      · exact Or.inl ⟨w, by simp, h1⟩
      · rcases List.mem_cons.mp h1 with rfl | h2
        · exact Or.inr rfl
        · rcases ih c h2 with ⟨w', hw', hc'⟩ | h3
          · exact Or.inl ⟨w', by simp [hw'], hc'⟩
          · exact Or.inr h3

/-- Every word of `splitWsAux acc l` is nonempty and whitespace-free,
provided the accumulator is whitespace-free. -/
theorem splitWsAux_sound :
    ∀ (l acc : List Char), (∀ c ∈ acc, isWs c = false) →
      ∀ w ∈ splitWsAux acc l, w ≠ [] ∧ ∀ c ∈ w, isWs c = false := by
  intro l
  induction l with
  | nil =>
    intro acc hacc w hw
    by_cases he : acc.isEmpty = true
    · rw [splitWsAux, if_pos he] at hw
      simp at hw
    · rw [splitWsAux, if_neg he] at hw
      rcases List.mem_singleton.mp hw with rfl
      refine ⟨by simpa [List.isEmpty_iff] using he, ?_⟩
      intro c hc
      exact hacc c (List.mem_reverse.mp hc)
  | cons a t ih =>
    intro acc hacc w hw
    by_cases ha : isWs a = true
    · by_cases he : acc.isEmpty = true
      · rw [splitWsAux, if_pos ha, if_pos he] at hw
        exact ih [] (by simp) w hw
      · rw [splitWsAux, if_pos ha, if_neg he] at hw
        rcases List.mem_cons.mp hw with rfl | hw2
        · refine ⟨by simpa [List.isEmpty_iff] using he, ?_⟩
          intro c hc
          exact hacc c (List.mem_reverse.mp hc)
        · exact ih [] (by simp) w hw2
    · rw [splitWsAux, if_neg ha] at hw
      refine ih (a :: acc) ?_ w hw
      intro c hc
      rcases List.mem_cons.mp hc with rfl | h2
      · simpa using ha
      · exact hacc c h2

/-- Scanning a whitespace-free word prefixes it (reversed) onto the
accumulator. -/
theorem splitWsAux_word :
    ∀ (w : List Char), (∀ c ∈ w, isWs c = false) →
      ∀ (acc l : List Char), splitWsAux acc (w ++ l) = splitWsAux (w.reverse ++ acc) l := by
  intro w
  induction w with
  | nil => intro _ acc l; simp
  | cons a t ih =>
    intro hw acc l
    have ha : isWs a = false := hw a (by simp)
    rw [List.cons_append, splitWsAux, if_neg (by simp [ha])]
    rw [ih (fun c hc => hw c (by simp [hc])) (a :: acc) l]
    simp

/-- A fold of suffix removals over patterns none of which occur in the
input is the identity. -/
theorem removeSuffixesFold_no_occurrence :
    ∀ (pats : List String) (l : List Char),
      (∀ s ∈ pats, isInfixB s.data l = false) →
      pats.foldl (fun d s => removeAll s.data d) l = l := by
  intro pats
  induction pats with
  | nil => intro l _; rfl
  | cons p t ih =>
    intro l h
    have h1 : removeAll p.data l = l :=
      removeAllGo_no_occurrence _ _ (h p (by simp))
    show t.foldl _ (removeAll p.data l) = l
    rw [h1]
    exact ih l fun s hs => h s (by simp [hs])

/-- Splitting the space-joined list of nonempty whitespace-free words
recovers exactly those words. -/
theorem splitWs_joinSpace :
    ∀ ws : List (List Char),
      (∀ w ∈ ws, w ≠ [] ∧ ∀ c ∈ w, isWs c = false) →
      splitWs (joinSpace ws) = ws := by
  intro ws
  induction ws with
  | nil => intro _; rfl
  | cons w t ih =>
    intro h
    obtain ⟨hw0, hwc⟩ := h w (by simp)
    match t with
    | [] =>
      show splitWsAux [] (joinSpace [w]) = [w]
      rw [joinSpace]
      have := splitWsAux_word w hwc [] []
      rw [List.append_nil] at this
      rw [this, List.append_nil, splitWsAux,
        if_neg (by simpa [List.isEmpty_iff] using hw0)]
      simp
    | b :: t' =>
      show splitWsAux [] (joinSpace (w :: b :: t')) = w :: b :: t'
      have hj : joinSpace (w :: b :: t') = w ++ ' ' :: joinSpace (b :: t') := rfl
      rw [hj]
      rw [splitWsAux_word w hwc [] (' ' :: joinSpace (b :: t'))]
      rw [List.append_nil, splitWsAux, if_pos (by simp [isWs]),
        if_neg (by simpa [List.isEmpty_iff] using hw0)]
      rw [List.reverse_reverse]
      exact congrArg _ (ih fun x hx => h x (by simp [hx]))

/-- With no vendor keys, the candidate loop never finds a match. -/
theorem fuzzyBestAux_keys_nil (scorer : String → String → ℚ) (threshold : ℚ) :
    ∀ (cands : List String) (acc : Option (String × ℚ)),
      fuzzyBestAux scorer threshold [] acc cands = acc := by
  intro cands
  induction cands with
  | nil => intro acc; rfl
  | cons cand cs ih =>
    intro acc
    show fuzzyBestAux scorer threshold []
      (if (pyStrip cand.data).isEmpty then acc
       else match extractOne scorer cand threshold [] with
         | none => acc
         | some (k, s) =>
           if (match acc with | none => (0 : ℚ) | some p => p.2) < s then some (k, s)
           else acc) cs = acc
    have hnone : extractOne scorer cand threshold [] = none := rfl
    rw [hnone]
    split
    · exact ih acc
    · exact ih acc

/-! ## Claim theorems -/

/-- C1 (code bug): evaluating the source at the failing input.  With
rules `[("!creditcardco", "X"), ("gas", "Transportation")]` and the
description `"creditcardco gas"` containing the exclusion root, the
keyword matcher still returns `Transportation` at confidence 0.95 (the
`continue` on line 68 skips only the exclusion rule itself, although
the adjacent comment says "Skip this description entirely"), and with
an exclusion-only rule list the arbitration engine still returns the
fuzzy tier's `Finance` — not `{category: none, confidence: 0}` as the
claim states. -/
theorem exclusion_continue_code_bug :
    (keyword_match "creditcardco gas"
        [⟨"!creditcardco", "X"⟩, ⟨"gas", "Transportation"⟩]).category =
      some "Transportation" ∧
    (keyword_match "creditcardco gas"
        [⟨"!creditcardco", "X"⟩, ⟨"gas", "Transportation"⟩]).confidence = 0.95 ∧
    (agent_choose_category "creditcardco" [⟨"!creditcardco", "X"⟩]
        [("creditcardco", "Finance")] [] none none (Except.error "offline")
        (mkRat 3 4) (fun _ _ => 100) 86).category = some "Finance" := by
  refine ⟨by decide, ?_, by decide⟩
  rw [← mk095]
  decide

/-- C5 counterexample: `normalize_vendor_name` is not idempotent.  For
`"linctd"`, removing the suffix `"inc"` manufactures a fresh
occurrence of the suffix `"ltd"`, which only the second application
removes: `normalize("linctd") = "ltd"` but `normalize("ltd") = ""`. -/
theorem normalize_not_idempotent_cex :
    normalize_vendor_name (normalize_vendor_name "linctd") ≠
      normalize_vendor_name "linctd" := by
  decide

/-- C5 (amended): `normalize_vendor_name` is idempotent on every input
whose normalized form contains no legal-entity suffix token as a
substring (suffix removal can otherwise manufacture a new suffix
occurrence, as the counterexample shows). -/
theorem normalize_idempotent_no_suffix (x : String)
    (h : ∀ s ∈ suffixes, isInfixB s.data (normalize_vendor_name x).data = false) :
    normalize_vendor_name (normalize_vendor_name x) = normalize_vendor_name x := by
  have hws : ∀ w ∈ splitWs (removeSuffixes (pyLower x.data)),
      w ≠ [] ∧ ∀ c ∈ w, isWs c = false :=
    splitWsAux_sound _ [] (by simp)
  have hfix : ∀ c ∈ joinSpace (splitWs (removeSuffixes (pyLower x.data))),
      Char.toLower c = c := by
    intro c hc
    rcases joinSpace_chars _ c hc with ⟨w, hw, hcw⟩ | rfl
    · have hcz : c ∈ removeSuffixes (pyLower x.data) := by
        rcases splitWsAux_chars _ [] w c hw hcw with h1 | h1
        · exact h1
        · simp at h1
      have hcl : c ∈ pyLower x.data := removeSuffixesFold_subset suffixes _ c hcz
      rcases List.mem_map.mp hcl with ⟨c0, _, rfl⟩
      exact toLower_idem c0
    · decide
  have hnorm : ∀ s : String, normalize_vendor_name s =
      ⟨joinSpace (splitWs (removeSuffixes (pyLower s.data)))⟩ := fun _ => rfl
  have hdata : (normalize_vendor_name x).data
      = joinSpace (splitWs (removeSuffixes (pyLower x.data))) := by
    rw [hnorm x]
  have hlow : pyLower (joinSpace (splitWs (removeSuffixes (pyLower x.data))))
      = joinSpace (splitWs (removeSuffixes (pyLower x.data))) :=
    map_eq_self_of_fixed _ _ hfix
  have hrem : removeSuffixes (joinSpace (splitWs (removeSuffixes (pyLower x.data))))
      = joinSpace (splitWs (removeSuffixes (pyLower x.data))) := by
    refine removeSuffixesFold_no_occurrence suffixes _ ?_
    intro s hs
    have hs2 := h s hs
    rwa [hdata] at hs2
  have hsp : splitWs (joinSpace (splitWs (removeSuffixes (pyLower x.data))))
      = splitWs (removeSuffixes (pyLower x.data)) :=
    splitWs_joinSpace _ hws
  rw [hnorm (normalize_vendor_name x), hdata, hlow, hrem, hsp, ← hnorm x]

/-- C5 witness: the amended idempotence theorem applied to a concrete
vendor name. -/
theorem normalize_idempotent_no_suffix_witness :
    normalize_vendor_name (normalize_vendor_name "Acme Ltd") =
      normalize_vendor_name "Acme Ltd" :=
  normalize_idempotent_no_suffix "Acme Ltd" (by decide)

/-- C9 counterexample: `save_mapping` does not deduplicate by keyword.
`df.drop_duplicates()` compares whole rows, so the rows
`("gas", "A")` and `("gas", "B")` are both persisted: the store can
hold two entries with the same exact keyword. -/
theorem save_mapping_keyword_dup_cex :
    ¬ ((save_mapping [⟨"gas", "A"⟩, ⟨"gas", "B"⟩]).countP
        (fun r => r.1 == "gas") ≤ 1) := by
  decide

/-- C9 (amended): every write of the rule store is deduplicated by
exact row, i.e. the persisted record set contains at most one entry per
`(keyword, category)` pair, for every input rule list (this covers in
particular the `save_mapping` call ending every learner invocation). -/
theorem save_mapping_row_dedup (mappings : List MappingRow) :
    (save_mapping mappings).Nodup := by
  unfold save_mapping dropDuplicates
  exact List.nodup_reverse.mpr (List.nodup_dedup _)

/-- C4 counterexample: the adapter strips surrounding whitespace before
the membership test, so the raw service response `"Food\n"`, which is
not exactly equal to any member of `["Food"]`, is nevertheless accepted
with positive confidence. -/
theorem llm_strip_coercion_cex :
    ¬ ("Food\n" ∈ (["Food"] : List String)) ∧
    (llm_match ["Food"] (some "k") none (Except.ok "Food\n") (mkRat 3 4)).category =
      some "Food" ∧
    (llm_match ["Food"] (some "k") none (Except.ok "Food\n") (mkRat 3 4)).confidence ≠
      0 := by
  decide

/-- C4 (amended): the Remote Classifier Adapter is a total function of
its inputs (never raises): with no truthy credential it returns the
zero-confidence no-credential result; on a service exception it returns
`{category: none, confidence: 0}` with the error in the note; and when
the response after stripping surrounding whitespace is not exactly
equal to one member of the closed category list, it returns confidence
0 with `category = none`. -/
theorem llm_adapter_total (categories : List String)
    (api_key settingsKey : Option String) (response : Except String String)
    (llmConfidence : ℚ) :
    (truthyOpt api_key = false → truthyOpt settingsKey = false →
      llm_match categories api_key settingsKey response llmConfidence =
        ⟨none, "llm", 0, none, "No API key provided for LLM"⟩) ∧
    (∀ e, truthyOpt (if truthyOpt api_key then api_key else settingsKey) = true →
      response = Except.error e →
      llm_match categories api_key settingsKey response llmConfidence =
        ⟨none, "llm", 0, none, "LLM error: " ++ e⟩) ∧
    (∀ content, response = Except.ok content → pyStripStr content ∉ categories →
      (llm_match categories api_key settingsKey response llmConfidence).category =
        none ∧
      (llm_match categories api_key settingsKey response llmConfidence).confidence =
        0) := by
  refine ⟨?_, ?_, ?_⟩
  · intro h1 h2
    simp [llm_match, h1, h2]
  · intro e hk hr
    subst hr
    simp only [llm_match]
    rw [if_neg (by simp [hk])]
  · intro content hr hmem
    subst hr
    by_cases hk : truthyOpt (if truthyOpt api_key then api_key else settingsKey) = true
    · constructor <;>
        · simp only [llm_match]
          rw [if_neg (by simp [hk])]
          simp [hmem]
    · constructor <;>
        · simp only [llm_match]
          rw [if_pos (by simpa using hk)]

/-- C4 witness: the adapter theorem applied at concrete inputs (a
missing credential, and a concrete transport error). -/
theorem llm_adapter_total_witness :
    llm_match ["Food"] none none (Except.ok "Food") 0.75 =
      ⟨none, "llm", 0, none, "No API key provided for LLM"⟩ ∧
    llm_match ["Food"] (some "k") none (Except.error "timeout") 0.75 =
      ⟨none, "llm", 0, none, "LLM error: " ++ "timeout"⟩ :=
  ⟨(llm_adapter_total ["Food"] none none (Except.ok "Food") 0.75).1 (by decide)
      (by decide),
   (llm_adapter_total ["Food"] (some "k") none (Except.error "timeout") 0.75).2.1
      "timeout" (by decide) rfl⟩

/-- C6: scoring of a non-exclusion rule in the keyword matcher.  A
space-containing keyword that is a substring of the lower-cased
description scores `min(0.95 + 0.01*wordCount, 0.98)`; a single-word
keyword equal to one token of the description's word set scores 0.95;
a single-word keyword that is only a substring and longer than 4
characters scores 0.85; and an exact word-boundary match always scores
at least a substring-only match of the same keyword. -/
theorem keyword_rule_scoring (description kw : String)
    (hx : (pyLowerStr kw).data.head? ≠ some '!') :
    ((pyLowerStr kw).data.contains ' ' = true →
      isInfixB (pyLowerStr kw).data (pyLowerStr description).data = true →
      ruleScore (pyLowerStr description) (splitWsStr (pyLowerStr description))
          (pyLowerStr kw) =
        min (0.95 + ((splitWsStr (pyLowerStr kw)).length : ℚ) * 0.01) 0.98) ∧
    ((pyLowerStr kw).data.contains ' ' = false →
      (splitWsStr (pyLowerStr description)).contains (pyLowerStr kw) = true →
      ruleScore (pyLowerStr description) (splitWsStr (pyLowerStr description))
          (pyLowerStr kw) = 0.95) ∧
    ((pyLowerStr kw).data.contains ' ' = false →
      (splitWsStr (pyLowerStr description)).contains (pyLowerStr kw) = false →
      isInfixB (pyLowerStr kw).data (pyLowerStr description).data = true →
      4 < (pyLowerStr kw).data.length →
      ruleScore (pyLowerStr description) (splitWsStr (pyLowerStr description))
          (pyLowerStr kw) = 0.85) ∧
    (∀ description2 : String,
      (pyLowerStr kw).data.contains ' ' = false →
      (splitWsStr (pyLowerStr description)).contains (pyLowerStr kw) = true →
      (splitWsStr (pyLowerStr description2)).contains (pyLowerStr kw) = false →
      ruleScore (pyLowerStr description2) (splitWsStr (pyLowerStr description2))
          (pyLowerStr kw) ≤
        ruleScore (pyLowerStr description) (splitWsStr (pyLowerStr description))
          (pyLowerStr kw)) := by
  have hnx : ∀ dl : String, ¬ ((pyLowerStr kw).data.head? = some '!' ∧
      isInfixB ((pyLowerStr kw).data.drop 1) dl.data = true) :=
    fun _ hcon => hx hcon.1
  refine ⟨?_, ?_, ?_, ?_⟩
  · intro hsp hinf
    rw [ruleScore, if_neg (hnx _), if_pos hsp, if_pos hinf,
      qAdd_eq, qMul_eq, mk095, mk001, mk098]
  · intro hsp hmem
    rw [ruleScore, if_neg (hnx _), if_neg (by simp only [hsp]; exact Bool.false_ne_true), if_pos hmem]
    exact mk095
  · intro hsp hmem hinf hlen
    rw [ruleScore, if_neg (hnx _), if_neg (by simp only [hsp]; exact Bool.false_ne_true),
      if_neg (by simp only [hmem]; exact Bool.false_ne_true), if_pos ⟨hinf, hlen⟩]
    exact mk085
  · intro description2 hsp hmem hmem2
    have h95 : ruleScore (pyLowerStr description)
        (splitWsStr (pyLowerStr description)) (pyLowerStr kw) = 0.95 := by
      rw [ruleScore, if_neg (hnx _), if_neg (by simp only [hsp]; exact Bool.false_ne_true), if_pos hmem]
      exact mk095
    rw [h95, ruleScore, if_neg (hnx _), if_neg (by simp only [hsp]; exact Bool.false_ne_true),
      if_neg (by simp only [hmem2]; exact Bool.false_ne_true)]
    rw [← mk095]
    split
    · decide
    · decide

/-- C6 witness: the scoring theorem applied to the concrete rule
`"Gas Station"` on the description `"gas station fuel"` (a two-word
phrase match). -/
theorem keyword_rule_scoring_witness :
    ruleScore (pyLowerStr "gas station fuel")
        (splitWsStr (pyLowerStr "gas station fuel")) (pyLowerStr "Gas Station") =
      min (0.95 + ((splitWsStr (pyLowerStr "Gas Station")).length : ℚ) * 0.01) 0.98 :=
  (keyword_rule_scoring "gas station fuel" "Gas Station" (by decide)).1
    (by decide) (by decide)

/-- C7: the fuzzy matcher's confidence formula.  When the strictly best
`(vendor, score)` across all candidate windows clears the threshold
(the content of `fuzzyBest … = some (v, s)`), the returned category is
the vendor's mapped category and the returned confidence is
`min(score/100, 0.9)`, further multiplied by 1.05 and capped at 0.95
when `score ≥ 95`; when no candidate clears the threshold the returned
confidence is 0 with `category = none`. -/
theorem fuzzy_confidence_formula (description : String)
    (v2c : List (String × String)) (scorer : String → String → ℚ)
    (threshold : ℚ) :
    (∀ v s, fuzzyBest description v2c scorer threshold = some (v, s) →
      (fuzzy_match description v2c scorer threshold).category = v2c.lookup v ∧
      (fuzzy_match description v2c scorer threshold).confidence =
        (if 95 ≤ s then min (min (s / 100) 0.9 * 1.05) 0.95
         else min (s / 100) 0.9)) ∧
    (fuzzyBest description v2c scorer threshold = none →
      (fuzzy_match description v2c scorer threshold).confidence = 0 ∧
      (fuzzy_match description v2c scorer threshold).category = none) := by
  constructor
  · intro v s hbb
    rcases v2c with _ | ⟨p, t⟩
    · have hb : fuzzyBest description [] scorer threshold = none :=
        fuzzyBestAux_keys_nil scorer threshold _ _
      rw [hb] at hbb
      exact absurd hbb (by simp)
    · refine ⟨?_, ?_⟩
      · rw [fuzzy_match, if_neg (by simp), hbb]
      · rw [fuzzy_match, if_neg (by simp), hbb]
        show (if 95 ≤ s then
            min (qMul (min (qDivNat s 100) (mkRat 9 10)) (mkRat 105 100)) (mkRat 95 100)
          else min (qDivNat s 100) (mkRat 9 10)) = _
        rw [qMul_eq, qDivNat_eq, mk09, mk0105, mk095]
        norm_num
  · intro hbb
    rcases v2c with _ | ⟨p, t⟩
    · exact ⟨rfl, rfl⟩
    · refine ⟨?_, ?_⟩ <;> rw [fuzzy_match, if_neg (by simp), hbb]

/-- C7 witness: the fuzzy formula theorem applied to the spec's
scenario B input, where the windowed candidate scores 100 against the
single vendor key. -/
theorem fuzzy_confidence_formula_witness :
    (fuzzy_match "SUPER MARKET CHAIN #4521" [("super market chain", "Groceries")]
        (fun q _ => if q = "super market chain" then 100 else 20) 86).category =
      [("super market chain", "Groceries")].lookup "super market chain" ∧
    (fuzzy_match "SUPER MARKET CHAIN #4521" [("super market chain", "Groceries")]
        (fun q _ => if q = "super market chain" then 100 else 20) 86).confidence =
      (if 95 ≤ (100 : ℚ) then min (min ((100 : ℚ) / 100) 0.9 * 1.05) 0.95
       else min ((100 : ℚ) / 100) 0.9) :=
  (fuzzy_confidence_formula "SUPER MARKET CHAIN #4521"
      [("super market chain", "Groceries")]
      (fun q _ => if q = "super market chain" then 100 else 20) 86).1
    "super market chain" 100 (by decide)

/-- Folding `pickBest` from `b` returns either `b` (everything at most
`b`'s confidence) or the first element of maximal confidence, which
strictly exceeds `b` and every earlier element. -/
theorem pickBest_foldl_spec (rs : List MatchResult) :
    ∀ b : MatchResult,
      (rs.foldl pickBest b = b ∧ ∀ r ∈ rs, r.confidence ≤ b.confidence) ∨
      (∃ i, ∃ h : i < rs.length, rs.foldl pickBest b = rs.get ⟨i, h⟩ ∧
        b.confidence < (rs.foldl pickBest b).confidence ∧
        (∀ r ∈ rs, r.confidence ≤ (rs.foldl pickBest b).confidence) ∧
        ∀ j, ∀ hj : j < rs.length, j < i →
          (rs.get ⟨j, hj⟩).confidence < (rs.foldl pickBest b).confidence) := by
  induction rs with
  | nil => intro b; exact Or.inl ⟨rfl, by simp⟩
  | cons x xs ih =>
    intro b
    rw [List.foldl_cons]
    by_cases hc : b.confidence < x.confidence
    · rw [show pickBest b x = x from if_pos hc]
      rcases ih x with ⟨heq, hall⟩ | ⟨i, hi, heq, hgt, hall, hpre⟩
      · refine Or.inr ⟨0, by simp, heq, ?_, ?_, ?_⟩
        · rw [heq]; exact hc
        · intro r hr
          rw [heq]
          rcases List.mem_cons.mp hr with rfl | hr2
          · exact le_refl _
          · exact hall r hr2
        · intro j hj hj0
          omega
      · refine Or.inr ⟨i + 1, Nat.succ_lt_succ hi, heq, lt_trans hc hgt, ?_, ?_⟩
        · intro r hr
          rcases List.mem_cons.mp hr with rfl | hr2
          · exact le_of_lt hgt
          · exact hall r hr2
        · intro j hj hji
          match j with
          | 0 => exact hgt
          | j' + 1 => exact hpre j' (Nat.lt_of_succ_lt_succ hj) (Nat.lt_of_succ_lt_succ hji)
    · rw [show pickBest b x = b from if_neg hc]
      rcases ih b with ⟨heq, hall⟩ | ⟨i, hi, heq, hgt, hall, hpre⟩
      · refine Or.inl ⟨heq, ?_⟩
        intro r hr
        rcases List.mem_cons.mp hr with rfl | hr2
        · exact not_lt.mp hc
        · exact hall r hr2
      · refine Or.inr ⟨i + 1, Nat.succ_lt_succ hi, heq, hgt, ?_, ?_⟩
        · intro r hr
          rcases List.mem_cons.mp hr with rfl | hr2
          · exact le_trans (not_lt.mp hc) (le_of_lt hgt)
          · exact hall r hr2
        · intro j hj hji
          match j with
          | 0 => exact lt_of_le_of_lt (not_lt.mp hc) hgt
          | j' + 1 => exact hpre j' (Nat.lt_of_succ_lt_succ hj) (Nat.lt_of_succ_lt_succ hji)

/-- `bestOf` on a nonempty list picks the first element of maximal
confidence: every element is bounded by it and every earlier element is
strictly below it. -/
theorem bestOf_spec (r : MatchResult) (rs : List MatchResult) :
    ∃ i, ∃ h : i < (r :: rs).length, bestOf (r :: rs) = (r :: rs).get ⟨i, h⟩ ∧
      (∀ x ∈ r :: rs, x.confidence ≤ (bestOf (r :: rs)).confidence) ∧
      ∀ j, ∀ hj : j < (r :: rs).length, j < i →
        ((r :: rs).get ⟨j, hj⟩).confidence < (bestOf (r :: rs)).confidence := by
  rcases pickBest_foldl_spec rs r with ⟨heq, hall⟩ | ⟨i, hi, heq, hgt, hall, hpre⟩
  · refine ⟨0, by simp, heq, ?_, ?_⟩
    · intro x hx
      show x.confidence ≤ (rs.foldl pickBest r).confidence
      rw [heq]
      rcases List.mem_cons.mp hx with rfl | hx2
      · exact le_refl _
      · exact hall x hx2
    · intro j hj hj0
      omega
  · refine ⟨i + 1, Nat.succ_lt_succ hi, heq, ?_, ?_⟩
    · intro x hx
      show x.confidence ≤ (rs.foldl pickBest r).confidence
      rcases List.mem_cons.mp hx with rfl | hx2
      · exact le_of_lt hgt
      · exact hall x hx2
    · intro j hj hji
      show ((r :: rs).get ⟨j, hj⟩).confidence < (rs.foldl pickBest r).confidence
      match j with
      | 0 => exact hgt
      | j' + 1 => exact hpre j' (Nat.lt_of_succ_lt_succ hj) (Nat.lt_of_succ_lt_succ hji)

/-- `bestOf` of a nonempty list is one of its elements. -/
theorem bestOf_mem (r : MatchResult) (rs : List MatchResult) :
    bestOf (r :: rs) ∈ r :: rs := by
  rcases bestOf_spec r rs with ⟨i, hi, heq, -, -⟩
  rw [heq]
  exact List.get_mem _ _ _

/-- A result found by the `extractOne` scan either was the accumulator
or names one of the scanned keys. -/
theorem extractOneAux_mem (scorer : String → String → ℚ) (q : String) (cutoff : ℚ) :
    ∀ (ks : List String) (acc : Option (String × ℚ)) (k : String) (s : ℚ),
      extractOneAux scorer q cutoff acc ks = some (k, s) →
      acc = some (k, s) ∨ k ∈ ks := by
  intro ks
  induction ks with
  | nil => intro acc k s h; exact Or.inl h
  | cons k0 ks ih =>
    intro acc k s h
    simp only [extractOneAux] at h
    rcases ih _ k s h with h1 | h1
    · by_cases hcut : cutoff ≤ scorer q k0
      · rw [if_pos hcut] at h1
        rcases acc with _ | ⟨k1, s1⟩
        · have h2 : some (k0, scorer q k0) = some (k, s) := h1
          simp only [Option.some.injEq, Prod.mk.injEq] at h2
          obtain ⟨rfl, -⟩ := h2
          exact Or.inr (List.mem_cons_self _ _)
        · have h2 : (if s1 < scorer q k0 then some (k0, scorer q k0)
              else some (k1, s1)) = some (k, s) := h1
          by_cases hlt : s1 < scorer q k0
          · rw [if_pos hlt] at h2
            simp only [Option.some.injEq, Prod.mk.injEq] at h2
            obtain ⟨rfl, -⟩ := h2
            exact Or.inr (List.mem_cons_self _ _)
          · rw [if_neg hlt] at h2
            exact Or.inl h2
      · rw [if_neg hcut] at h1
        exact Or.inl h1
    · exact Or.inr (List.mem_cons_of_mem _ h1)

/-- A result found by the candidate scan either was the accumulator or
names one of the vendor keys. -/
theorem fuzzyBestAux_mem (scorer : String → String → ℚ) (threshold : ℚ)
    (keys : List String) :
    ∀ (cands : List String) (acc : Option (String × ℚ)) (v : String) (s : ℚ),
      fuzzyBestAux scorer threshold keys acc cands = some (v, s) →
      acc = some (v, s) ∨ v ∈ keys := by
  intro cands
  induction cands with
  | nil => intro acc v s h; exact Or.inl h
  | cons cand cs ih =>
    intro acc v s h
    simp only [fuzzyBestAux] at h
    rcases ih _ v s h with h1 | h1
    · by_cases hblank : ((pyStrip cand.data).isEmpty : Bool) = true
      · rw [if_pos hblank] at h1
        exact Or.inl h1
      · rw [if_neg hblank] at h1
        rcases hext : extractOne scorer cand threshold keys with _ | ⟨k, s'⟩
        · rw [hext] at h1
          exact Or.inl h1
        · rw [hext] at h1
          have hk : k ∈ keys := by
            rcases extractOneAux_mem scorer cand threshold keys none k s' hext with h2 | h2
            · exact absurd h2 (by simp)
            · exact h2
          rcases acc with _ | ⟨ka, sa⟩
          · have h2 : (if (0 : ℚ) < s' then some (k, s')
                else (none : Option (String × ℚ))) = some (v, s) := h1
            by_cases hlt : (0 : ℚ) < s'
            · rw [if_pos hlt] at h2
              simp only [Option.some.injEq, Prod.mk.injEq] at h2
              obtain ⟨rfl, -⟩ := h2
              exact Or.inr hk
            · rw [if_neg hlt] at h2
              exact absurd h2 (by simp)
          · have h2 : (if sa < s' then some (k, s')
                else some (ka, sa)) = some (v, s) := h1
            by_cases hlt : sa < s'
            · rw [if_pos hlt] at h2
              simp only [Option.some.injEq, Prod.mk.injEq] at h2
              obtain ⟨rfl, -⟩ := h2
              exact Or.inr hk
            · rw [if_neg hlt] at h2
              exact Or.inl h2
    · exact Or.inr h1

/-- The winning vendor of `fuzzyBest` is one of the vendor map's keys. -/
theorem fuzzyBest_mem (description : String) (v2c : List (String × String))
    (scorer : String → String → ℚ) (threshold : ℚ) (v : String) (s : ℚ)
    (h : fuzzyBest description v2c scorer threshold = some (v, s)) :
    v ∈ v2c.map Prod.fst := by
  rcases fuzzyBestAux_mem scorer threshold (v2c.map Prod.fst)
      (candidatesOf description) none v s h with h1 | h1
  · exact absurd h1 (by simp)
  · exact h1

/-- Looking up a present key succeeds. -/
theorem lookup_isSome_of_mem :
    ∀ (l : List (String × String)) (v : String),
      v ∈ l.map Prod.fst → (l.lookup v).isSome = true := by
  intro l
  induction l with
  | nil => intro v h; simp at h
  | cons p t ih =>
    intro v h
    rcases p with ⟨a, b⟩
    by_cases hv : v = a
    · subst hv
      simp [List.lookup]
    · have h1 : v ∈ t.map Prod.fst := by
        rw [List.map_cons] at h
        rcases List.mem_cons.mp h with h2 | h2
        · exact absurd h2 hv
        · exact h2
      have hbeq : (v == a) = false := beq_eq_false_iff_ne.mpr hv
      simp only [List.lookup, hbeq]
      exact ih v h1

/-- The keyword tier only attaches a positive confidence to a found
category: a null category forces confidence 0. -/
theorem keyword_match_null_zero (description : String) (mappings : List MappingRow) :
    (keyword_match description mappings).category = none →
    (keyword_match description mappings).confidence = 0 := by
  rw [keyword_match]
  split
  · intro h
    simp at h
  · intro _
    rfl

/-- The fuzzy tier only attaches a positive confidence to a found
category: a null category forces confidence 0. -/
theorem fuzzy_match_null_zero (description : String) (v2c : List (String × String))
    (scorer : String → String → ℚ) (threshold : ℚ) :
    (fuzzy_match description v2c scorer threshold).category = none →
    (fuzzy_match description v2c scorer threshold).confidence = 0 := by
  intro hcat
  rcases hbb : fuzzyBest description v2c scorer threshold with _ | ⟨v, s⟩
  · exact ((fuzzy_confidence_formula description v2c scorer threshold).2 hbb).1
  · exfalso
    have hcat2 : (fuzzy_match description v2c scorer threshold).category =
        v2c.lookup v :=
      ((fuzzy_confidence_formula description v2c scorer threshold).1 v s hbb).1
    have hlk : (v2c.lookup v).isSome = true :=
      lookup_isSome_of_mem v2c v (fuzzyBest_mem description v2c scorer threshold v s hbb)
    rw [← hcat2, hcat] at hlk
    simp at hlk

/-- The remote tier only attaches a positive confidence to a found
category: a null category forces confidence 0. -/
theorem llm_match_null_zero (categories : List String)
    (api_key settingsKey : Option String) (response : Except String String)
    (llmConfidence : ℚ) :
    (llm_match categories api_key settingsKey response llmConfidence).category = none →
    (llm_match categories api_key settingsKey response llmConfidence).confidence = 0 := by
  simp only [llm_match]
  by_cases hk : truthyOpt (if truthyOpt api_key then api_key else settingsKey) = false
  · rw [if_pos hk]
    intro _
    rfl
  · rw [if_neg hk]
    rcases response with e | content
    · intro _
      rfl
    · show (if pyStripStr content ∈ categories then
          (⟨some (pyStripStr content), "llm", llmConfidence, none,
            "LLM suggestion: " ++ pyStripStr content⟩ : MatchResult)
        else ⟨none, "llm", 0, none,
          "LLM returned invalid category: " ++ pyStripStr content⟩).category = none →
        (if pyStripStr content ∈ categories then
          (⟨some (pyStripStr content), "llm", llmConfidence, none,
            "LLM suggestion: " ++ pyStripStr content⟩ : MatchResult)
        else ⟨none, "llm", 0, none,
          "LLM returned invalid category: " ++ pyStripStr content⟩).confidence = 0
      by_cases hmem : pyStripStr content ∈ categories
      · rw [if_pos hmem]
        intro h
        simp at h
      · rw [if_neg hmem]
        intro _
        rfl

/-- The agreement boost preserves the null-category-means-zero
invariant: it never touches a result with a null category. -/
theorem boostResults_null_zero (rs : List MatchResult)
    (hq : ∀ r ∈ rs, r.category = none → r.confidence = 0) :
    ∀ r ∈ boostResults rs, r.category = none → r.confidence = 0 := by
  intro r hr
  rw [boostResults] at hr
  by_cases hlen : 2 ≤ (proposals rs).length
  · rw [if_pos hlen] at hr
    rcases hmc : mostCommon1 (proposals rs) with _ | ⟨c, n⟩
    · rw [hmc] at hr
      exact hq r hr
    · rw [hmc] at hr
      have hr2 : r ∈ (if 2 ≤ n then
          rs.map (fun r => if r.category = some c then
            { r with confidence := min (qMul r.confidence (mkRat 12 10)) (mkRat 98 100) }
          else r)
        else rs) := hr
      by_cases hn : 2 ≤ n
      · rw [if_pos hn] at hr2
        rcases List.mem_map.mp hr2 with ⟨r0, hr0, rfl⟩
        intro hcat
        by_cases hc0 : r0.category = some c
        · exfalso
          rw [if_pos hc0] at hcat
          have hcat2 : r0.category = none := hcat
          rw [hc0] at hcat2
          exact Option.noConfusion hcat2
        · rw [if_neg hc0] at hcat
          rw [if_neg hc0]
          exact hq r0 hr0 hcat
      · rw [if_neg hn] at hr2
        exact hq r hr2
  · rw [if_neg hlen] at hr
    exact hq r hr

/-- The boost step never empties the result pool. -/
theorem boostResults_ne_nil (rs : List MatchResult) (h : rs ≠ []) :
    boostResults rs ≠ [] := by
  rw [boostResults]
  split
  · split
    · split
      · simpa using h
      · exact h
    · exact h
  · exact h

/-- C10: implicit postcondition of the Arbitration Engine.  Every
returned `MatchResult` either is the refusal result (null category,
strategy `none`, confidence 0) or carries a non-null category with
confidence at least 0.7: no null category ever comes with positive
confidence, and no confidence strictly between 0 and 0.7 is returned. -/
theorem agent_result_shape (description : String) (mappings : List MappingRow)
    (vendor_to_cat : List (String × String)) (categories : List String)
    (llm_api_key settingsKey : Option String) (llmResponse : Except String String)
    (llmConfidence : ℚ) (scorer : String → String → ℚ) (fuzzy_threshold : ℚ) :
    ((agent_choose_category description mappings vendor_to_cat categories
        llm_api_key settingsKey llmResponse llmConfidence scorer
        fuzzy_threshold).category = none ∧
      (agent_choose_category description mappings vendor_to_cat categories
        llm_api_key settingsKey llmResponse llmConfidence scorer
        fuzzy_threshold).strategy = "none" ∧
      (agent_choose_category description mappings vendor_to_cat categories
        llm_api_key settingsKey llmResponse llmConfidence scorer
        fuzzy_threshold).confidence = 0) ∨
    ((agent_choose_category description mappings vendor_to_cat categories
        llm_api_key settingsKey llmResponse llmConfidence scorer
        fuzzy_threshold).category ≠ none ∧
      (0.7 : ℚ) ≤ (agent_choose_category description mappings vendor_to_cat
        categories llm_api_key settingsKey llmResponse llmConfidence scorer
        fuzzy_threshold).confidence) := by
  have hq : ∀ r ∈ arbitrationPool description mappings vendor_to_cat categories
      llm_api_key settingsKey llmResponse llmConfidence scorer fuzzy_threshold,
      r.category = none → r.confidence = 0 := by
    apply boostResults_null_zero
    intro r hr
    rw [agentRawResults] at hr
    rcases List.mem_append.mp hr with h1 | h1
    · rcases List.mem_cons.mp h1 with rfl | h2
      · exact keyword_match_null_zero description mappings
      · rcases List.mem_cons.mp h2 with rfl | h3
        · exact fuzzy_match_null_zero description vendor_to_cat scorer fuzzy_threshold
        · simp at h3
    · split at h1
      · rcases List.mem_singleton.mp h1 with rfl
        exact llm_match_null_zero categories llm_api_key settingsKey llmResponse
          llmConfidence
      · simp at h1
  rcases hpool : arbitrationPool description mappings vendor_to_cat categories
      llm_api_key settingsKey llmResponse llmConfidence scorer fuzzy_threshold
    with _ | ⟨r0, rest⟩
  · exact absurd hpool (boostResults_ne_nil _ (by rw [agentRawResults]; simp))
  · rw [hpool] at hq
    simp only [agent_choose_category]
    rw [hpool]
    by_cases hb : (bestOf (r0 :: rest)).confidence < mkRat 7 10
    · rw [if_pos hb]
      exact Or.inl ⟨rfl, rfl, rfl⟩
    · rw [if_neg hb]
      right
      have hmem : bestOf (r0 :: rest) ∈ r0 :: rest := bestOf_mem r0 rest
      have h07 : mkRat 7 10 ≤ (bestOf (r0 :: rest)).confidence := not_lt.mp hb
      constructor
      · intro hcat
        have h0 := hq _ hmem hcat
        rw [h0] at h07
        exact absurd h07 (by decide)
      · rw [← mk07]
        exact h07

/-- C2 counterexample: the 0.7 floor is applied after the agreement
boost, so it is not true that the engine refuses whenever every tier's
confidence is below 0.7.  With a fuzzy threshold of 60, a similarity
score of 65 and a remote confidence constant of 0.65, the fuzzy and
remote tiers both propose `Food` at 0.65 (< 0.7); the agreement boost
lifts them to 0.78 and the engine returns `Food` instead of the
refusal result. -/
theorem floor_boost_crossing_cex :
    (keyword_match "acme shop" []).confidence < mkRat 7 10 ∧
    (fuzzy_match "acme shop" [("acme", "Food")] (fun _ _ => 65) 60).confidence <
      mkRat 7 10 ∧
    (llm_match ["Food"] (some "k") none (Except.ok "Food") (mkRat 65 100)).confidence <
      mkRat 7 10 ∧
    (agent_choose_category "acme shop" [] [("acme", "Food")] ["Food"] (some "k")
        none (Except.ok "Food") (mkRat 65 100) (fun _ _ => 65) 60).category =
      some "Food" := by
  decide

/-- C2 (amended): the minimum-confidence cutoff is applied to the
post-boost pool.  If every result of the boosted pool is below 0.7 the
engine returns the refusal result; otherwise it returns the pool's
globally highest-confidence result, ties broken by the fixed evaluation
order (keyword, fuzzy, remote), i.e. the element at the least index
attaining the maximal confidence. -/
theorem arbitration_cutoff_after_boost (description : String)
    (mappings : List MappingRow) (vendor_to_cat : List (String × String))
    (categories : List String) (llm_api_key settingsKey : Option String)
    (llmResponse : Except String String) (llmConfidence : ℚ)
    (scorer : String → String → ℚ) (fuzzy_threshold : ℚ) :
    ((∀ r ∈ arbitrationPool description mappings vendor_to_cat categories
        llm_api_key settingsKey llmResponse llmConfidence scorer fuzzy_threshold,
        r.confidence < 0.7) →
      agent_choose_category description mappings vendor_to_cat categories
        llm_api_key settingsKey llmResponse llmConfidence scorer fuzzy_threshold =
      noneResult) ∧
    ((∃ r ∈ arbitrationPool description mappings vendor_to_cat categories
        llm_api_key settingsKey llmResponse llmConfidence scorer fuzzy_threshold,
        (0.7 : ℚ) ≤ r.confidence) →
      ∃ i, ∃ h : i < (arbitrationPool description mappings vendor_to_cat categories
        llm_api_key settingsKey llmResponse llmConfidence scorer
        fuzzy_threshold).length,
        agent_choose_category description mappings vendor_to_cat categories
            llm_api_key settingsKey llmResponse llmConfidence scorer
            fuzzy_threshold =
          (arbitrationPool description mappings vendor_to_cat categories
            llm_api_key settingsKey llmResponse llmConfidence scorer
            fuzzy_threshold).get ⟨i, h⟩ ∧
        (∀ j, ∀ hj : j < (arbitrationPool description mappings vendor_to_cat
            categories llm_api_key settingsKey llmResponse llmConfidence scorer
            fuzzy_threshold).length,
          ((arbitrationPool description mappings vendor_to_cat categories
            llm_api_key settingsKey llmResponse llmConfidence scorer
            fuzzy_threshold).get ⟨j, hj⟩).confidence ≤
          ((arbitrationPool description mappings vendor_to_cat categories
            llm_api_key settingsKey llmResponse llmConfidence scorer
            fuzzy_threshold).get ⟨i, h⟩).confidence) ∧
        ∀ j, ∀ hj : j < (arbitrationPool description mappings vendor_to_cat
            categories llm_api_key settingsKey llmResponse llmConfidence scorer
            fuzzy_threshold).length, j < i →
          ((arbitrationPool description mappings vendor_to_cat categories
            llm_api_key settingsKey llmResponse llmConfidence scorer
            fuzzy_threshold).get ⟨j, hj⟩).confidence <
          ((arbitrationPool description mappings vendor_to_cat categories
            llm_api_key settingsKey llmResponse llmConfidence scorer
            fuzzy_threshold).get ⟨i, h⟩).confidence) := by
  rcases hpool : arbitrationPool description mappings vendor_to_cat categories
      llm_api_key settingsKey llmResponse llmConfidence scorer fuzzy_threshold
    with _ | ⟨r0, rest⟩
  · exact absurd hpool (boostResults_ne_nil _ (by rw [agentRawResults]; simp))
  · constructor
    · intro hall
      simp only [agent_choose_category]
      rw [hpool]
      rw [if_pos (by rw [mk07]; exact hall _ (bestOf_mem r0 rest))]
    · rintro ⟨r, hr, hge⟩
      obtain ⟨i, hi, heq, hall, hpre⟩ := bestOf_spec r0 rest
      have hbc : ¬ (bestOf (r0 :: rest)).confidence < mkRat 7 10 := by
        rw [mk07]
        exact not_lt.mpr (le_trans hge (hall r hr))
      refine ⟨i, hi, ?_, ?_, ?_⟩
      · simp only [agent_choose_category]
        rw [hpool, if_neg hbc]
        exact heq
      · intro j hj
        rw [← heq]
        exact hall _ (List.get_mem _ _ _)
      · intro j hj hji
        rw [← heq]
        exact hpre j hj hji

/-- C2 witness: the amended cutoff theorem applied at the spec's
scenario C input (no rules, no vendor map, no credential): each pool
result has confidence 0, so the engine returns the refusal result. -/
theorem arbitration_cutoff_after_boost_witness :
    agent_choose_category "UNKNOWN MERCHANT XYZ" [] [] [] none none
      (Except.error "e") (mkRat 3 4) (fun _ _ => 0) 86 = noneResult := by
  apply (arbitration_cutoff_after_boost "UNKNOWN MERCHANT XYZ" [] [] [] none none
    (Except.error "e") (mkRat 3 4) (fun _ _ => 0) 86).1
  intro r hr
  have hp : arbitrationPool "UNKNOWN MERCHANT XYZ" [] [] [] none none
      (Except.error "e") (mkRat 3 4) (fun _ _ => 0) 86 =
      [⟨none, "keyword", 0, none, "No keyword matches found"⟩,
       ⟨none, "fuzzy", 0, none, "No vendor mappings available"⟩] := by
    decide
  rw [hp] at hr
  rcases List.mem_cons.mp hr with rfl | hr2
  · show (0 : ℚ) < 0.7
    norm_num
  · rcases List.mem_cons.mp hr2 with rfl | hr3
    · show (0 : ℚ) < 0.7
      norm_num
    · simp at hr3

/-- For a nonempty category string `c`, the multiplicity of `c` among
the truthy proposals equals the number of results carrying exactly
category `c`. -/
theorem proposals_count (c : String) (hc : c ≠ "") :
    ∀ rs : List MatchResult,
      (proposals rs).count c = rs.countP (fun r => r.category == some c) := by
  intro rs
  induction rs with
  | nil => rfl
  | cons r t ih =>
    simp only [proposals, List.filterMap_cons] at ih ⊢
    rw [List.countP_cons]
    rcases hcat : r.category with _ | s
    · simpa [hcat] using ih
    · by_cases hs : s = ""
      · subst hs
        simpa [hcat, Ne.symm hc] using ih
      · by_cases hsc : s = c
        · subst hsc
          simp [hcat, hs, List.count_cons, ih]
        · simp [hcat, hs, List.count_cons, beq_iff_eq, hsc, Ne.symm (Ne.intro hsc), ih]

/-- The number of truthy proposals is bounded by the number of non-null
categories in the pool. -/
theorem proposals_length_le_countP :
    ∀ rs : List MatchResult,
      (proposals rs).length ≤ rs.countP (fun r => r.category.isSome) := by
  intro rs
  induction rs with
  | nil => exact Nat.le_refl 0
  | cons r t ih =>
    simp only [proposals, List.filterMap_cons] at ih ⊢
    rw [List.countP_cons]
    rcases hcat : r.category with _ | s
    · simpa [hcat] using ih
    · by_cases hs : s = ""
      · subst hs
        simp [hcat]
        exact le_trans ih (by omega)
      · simp [hcat, hs]
        exact ih

/-- On a list of at most three strings, a value occurring at least
twice is the strict majority, so `most_common(1)` returns it with its
multiplicity. -/
theorem mostCommon1_of_two :
    ∀ (l : List String) (c : String), l.length ≤ 3 → 2 ≤ l.count c →
      mostCommon1 l = some (c, l.count c) := by
  intro l c hlen hcnt
  match l, hlen with
  | [], _ => simp at hcnt
  | [a], _ =>
    have h1 : List.count c [a] ≤ 1 := by
      simpa using List.count_le_length c [a]
    omega
  | [a, b], _ =>
    by_cases h1 : a = c
    · by_cases h2 : b = c
      · subst h1
        subst h2
        simp [mostCommon1, dedupFirst, dedupFirstAux, List.count_cons]
      · exfalso
        simp [List.count_cons, beq_iff_eq, h2, Ne.symm (Ne.intro h2), h1] at hcnt
    · by_cases h2 : b = c
      · exfalso
        simp [List.count_cons, beq_iff_eq, h2, h1, Ne.symm (Ne.intro h1)] at hcnt
      · exfalso
        simp [List.count_cons, beq_iff_eq, h1, h2, Ne.symm (Ne.intro h1),
          Ne.symm (Ne.intro h2)] at hcnt
  | [a, b, d], _ =>
    by_cases h1 : a = c <;> by_cases h2 : b = c <;> by_cases h3 : d = c
    · subst h1; subst h2; subst h3
      simp [mostCommon1, dedupFirst, dedupFirstAux, List.count_cons]
    · subst h1; subst h2
      simp [mostCommon1, dedupFirst, dedupFirstAux, List.count_cons,
        beq_iff_eq, h3, Ne.symm (Ne.intro h3)]
    · subst h1; subst h3
      simp [mostCommon1, dedupFirst, dedupFirstAux, List.count_cons,
        beq_iff_eq, h2, Ne.symm (Ne.intro h2)]
    · exfalso
      simp [List.count_cons, beq_iff_eq, h2, h3, h1, Ne.symm (Ne.intro h2),
        Ne.symm (Ne.intro h3)] at hcnt
    · subst h2; subst h3
      simp [mostCommon1, dedupFirst, dedupFirstAux, List.count_cons,
        beq_iff_eq, h1, Ne.symm (Ne.intro h1)]
    · exfalso
      simp [List.count_cons, beq_iff_eq, h1, h3, h2, Ne.symm (Ne.intro h1),
        Ne.symm (Ne.intro h3)] at hcnt
    · exfalso
      simp [List.count_cons, beq_iff_eq, h1, h2, h3, Ne.symm (Ne.intro h1),
        Ne.symm (Ne.intro h2)] at hcnt
    · exfalso
      simp [List.count_cons, beq_iff_eq, h1, h2, h3, Ne.symm (Ne.intro h1),
        Ne.symm (Ne.intro h2), Ne.symm (Ne.intro h3)] at hcnt

/-- Every element produced by `dedupFirstAux` comes from its input
list. -/
theorem dedupFirstAux_subset :
    ∀ (l seen : List String) (a : String), a ∈ dedupFirstAux seen l → a ∈ l := by
  intro l
  induction l with
  | nil =>
    intro seen a h
    exact absurd h (by simp [dedupFirstAux])
  | cons b t ih =>
    intro seen a h
    have h' : a ∈ (if seen.contains b then dedupFirstAux seen t
        else b :: dedupFirstAux (b :: seen) t) := h
    by_cases hb : seen.contains b
    · rw [if_pos hb] at h'
      exact List.mem_cons_of_mem _ (ih seen a h')
    · rw [if_neg hb] at h'
      rcases List.mem_cons.mp h' with rfl | h2
      · exact List.mem_cons_self _ _
      · exact List.mem_cons_of_mem _ (ih (b :: seen) a h2)

/-- Invariant of the `most_common(1)` fold: any produced pair is a key
of the counted list together with its exact multiplicity. -/
theorem mostCommonFold_spec (l : List String) :
    ∀ (ks : List String) (acc : Option (String × Nat)) (c : String) (n : Nat),
      (∀ k ∈ ks, k ∈ l) →
      (∀ k0 n0, acc = some (k0, n0) → k0 ∈ l ∧ n0 = l.count k0) →
      ks.foldl
        (fun a k =>
          match a with
          | none => some (k, l.count k)
          | some (k0, n0) =>
            if n0 < l.count k then some (k, l.count k) else some (k0, n0)) acc
        = some (c, n) →
      c ∈ l ∧ n = l.count c := by
  intro ks
  induction ks with
  | nil =>
    intro acc c n _ hacc h
    exact hacc c n h
  | cons k t ih =>
    intro acc c n hks hacc h
    rw [List.foldl_cons] at h
    refine ih _ c n (fun x hx => hks x (List.mem_cons_of_mem _ hx)) ?_ h
    intro k0 n0 h0
    rcases acc with _ | ⟨k1, n1⟩
    · have h0' : some (k, l.count k) = some (k0, n0) := h0
      simp only [Option.some.injEq, Prod.mk.injEq] at h0'
      obtain ⟨rfl, rfl⟩ := h0'
      exact ⟨hks k (List.mem_cons_self k t), rfl⟩
    · have h0' : (if n1 < l.count k then some (k, l.count k) else some (k1, n1)) =
          some (k0, n0) := h0
      by_cases hlt : n1 < l.count k
      · rw [if_pos hlt] at h0'
        simp only [Option.some.injEq, Prod.mk.injEq] at h0'
        obtain ⟨rfl, rfl⟩ := h0'
        exact ⟨hks k (List.mem_cons_self k t), rfl⟩
      · rw [if_neg hlt] at h0'
        simp only [Option.some.injEq, Prod.mk.injEq] at h0'
        obtain ⟨rfl, rfl⟩ := h0'
        exact hacc k1 n1 rfl

/-- `most_common(1)` always returns a key of its input together with
that key's exact multiplicity. -/
theorem mostCommon1_mem (l : List String) (c : String) (n : Nat)
    (h : mostCommon1 l = some (c, n)) : c ∈ l ∧ n = l.count c := by
  refine mostCommonFold_spec l (dedupFirst l) none c n ?_ ?_ h
  · intro k hk
    exact dedupFirstAux_subset l [] k hk
  · intro k0 n0 h0
    exact absurd h0 (by simp)

/-- C3 counterexample: the Python truthiness test `if r.category` drops
the empty-string category, which is a non-null value.  Two results both
proposing the (non-null) category `""` are left entirely unboosted,
although the claim demands their confidences be multiplied by 1.2. -/
theorem boost_empty_category_cex :
    2 ≤ ([(⟨some "", "keyword", mkRat 95 100, none, ""⟩ : MatchResult),
          ⟨some "", "fuzzy", mkRat 9 10, none, ""⟩] : List MatchResult).countP
        (fun r => r.category == some "") ∧
    boostResults [⟨some "", "keyword", mkRat 95 100, none, ""⟩,
        ⟨some "", "fuzzy", mkRat 9 10, none, ""⟩] =
      [⟨some "", "keyword", mkRat 95 100, none, ""⟩,
       ⟨some "", "fuzzy", mkRat 9 10, none, ""⟩] ∧
    ∀ r ∈ ([⟨some "", "keyword", mkRat 95 100, none, ""⟩,
        ⟨some "", "fuzzy", mkRat 9 10, none, ""⟩] : List MatchResult),
      r.confidence ≠ min (r.confidence * 1.2) 0.98 := by
  refine ⟨by decide, by decide, ?_⟩
  intro r hr
  rcases List.mem_cons.mp hr with rfl | hr2
  · show mkRat 95 100 ≠ min (mkRat 95 100 * 1.2) 0.98
    rw [mk095, min_def]
    norm_num
  · rcases List.mem_cons.mp hr2 with rfl | hr3
    · show mkRat 9 10 ≠ min (mkRat 9 10 * 1.2) 0.98
      rw [mk09, min_def]
      norm_num
    · simp at hr3

/-- C3 (amended): in the Arbitration Engine's pool (at most three
results), if at least two results propose the same non-null, non-empty
category, every result carrying that category has its confidence
multiplied by 1.2 and capped at 0.98 while all other results are
untouched; and whenever the truthy proposed categories are pairwise
distinct — fewer than 2 truthy proposals agree on any category, hence
in particular on the winning one (this covers a pool with at most one
non-null category, two tiers proposing distinct truthy categories, and
an empty-string proposal next to a single truthy one) — the pool is
returned entirely unchanged. -/
theorem agreement_boost_requires_two :
    (∀ (rs : List MatchResult) (c : String), rs.length ≤ 3 → c ≠ "" →
      2 ≤ rs.countP (fun r => r.category == some c) →
      boostResults rs = rs.map fun r =>
        if r.category = some c then
          { r with confidence := min (r.confidence * 1.2) 0.98 }
        else r) ∧
    (∀ rs : List MatchResult, (proposals rs).Nodup →
      boostResults rs = rs) := by
  constructor
  · intro rs c hlen hc hcnt
    have hcount : (proposals rs).count c = rs.countP (fun r => r.category == some c) :=
      proposals_count c hc rs
    have h2 : 2 ≤ (proposals rs).count c := by rw [hcount]; exact hcnt
    have hlen2 : 2 ≤ (proposals rs).length :=
      le_trans h2 (List.count_le_length c (proposals rs))
    have hplen : (proposals rs).length ≤ 3 :=
      le_trans (List.length_filterMap_le _ _) hlen
    have hmc : mostCommon1 (proposals rs) = some (c, (proposals rs).count c) :=
      mostCommon1_of_two (proposals rs) c hplen h2
    simp only [boostResults]
    rw [if_pos hlen2, hmc]
    show (if 2 ≤ (proposals rs).count c then
        rs.map fun r =>
          if r.category = some c then
            { r with confidence := min (qMul r.confidence (mkRat 12 10)) (mkRat 98 100) }
          else r
      else rs) = _
    rw [if_pos h2]
    refine List.map_congr_left ?_
    intro r _
    by_cases hcc : r.category = some c
    · rw [if_pos hcc, if_pos hcc, qMul_eq, mk12, mk098]
    · rw [if_neg hcc, if_neg hcc]
  · intro rs hnd
    simp only [boostResults]
    by_cases hl : 2 ≤ (proposals rs).length
    · rw [if_pos hl]
      rcases hmc : mostCommon1 (proposals rs) with _ | ⟨c, n⟩
      · rfl
      · have hspec : c ∈ proposals rs ∧ n = (proposals rs).count c :=
          mostCommon1_mem _ _ _ hmc
        have hn1 : n ≤ 1 := by
          rw [hspec.2]
          exact List.nodup_iff_count_le_one.mp hnd c
        show (if 2 ≤ n then
            rs.map fun r =>
              if r.category = some c then
                { r with confidence := min (qMul r.confidence (mkRat 12 10)) (mkRat 98 100) }
              else r
          else rs) = rs
        rw [if_neg (by omega)]
    · rw [if_neg hl]

/-- C3 witness: the amended boost theorem applied to two concrete
pools — one where the keyword and fuzzy tiers both propose `Food` (the
boost fires), and one with two distinct truthy proposals next to an
empty-string proposal (no boost). -/
theorem agreement_boost_requires_two_witness :
    (boostResults [(⟨some "Food", "keyword", mkRat 95 100, none, ""⟩ : MatchResult),
        ⟨some "Food", "fuzzy", mkRat 9 10, none, ""⟩] =
      ([(⟨some "Food", "keyword", mkRat 95 100, none, ""⟩ : MatchResult),
        ⟨some "Food", "fuzzy", mkRat 9 10, none, ""⟩]).map fun r =>
        if r.category = some "Food" then
          { r with confidence := min (r.confidence * 1.2) 0.98 }
        else r) ∧
    boostResults [(⟨some "A", "keyword", mkRat 95 100, none, ""⟩ : MatchResult),
        ⟨some "B", "fuzzy", mkRat 9 10, none, ""⟩,
        ⟨some "", "llm", mkRat 75 100, none, ""⟩] =
      [⟨some "A", "keyword", mkRat 95 100, none, ""⟩,
       ⟨some "B", "fuzzy", mkRat 9 10, none, ""⟩,
       ⟨some "", "llm", mkRat 75 100, none, ""⟩] :=
  ⟨agreement_boost_requires_two.1
      [⟨some "Food", "keyword", mkRat 95 100, none, ""⟩,
       ⟨some "Food", "fuzzy", mkRat 9 10, none, ""⟩] "Food"
      (by decide) (by decide) (by decide),
    agreement_boost_requires_two.2
      [⟨some "A", "keyword", mkRat 95 100, none, ""⟩,
       ⟨some "B", "fuzzy", mkRat 9 10, none, ""⟩,
       ⟨some "", "llm", mkRat 75 100, none, ""⟩] (by decide)⟩

/-- A rule list passed through `addIfAbsent` always contains the added
keyword afterwards. -/
theorem addIfAbsent_has (ms : List MappingRow) (kw c : String) :
    (addIfAbsent ms kw c).any (fun m => m.keyword = kw) = true := by
  rw [addIfAbsent]
  split
  · next h => exact h
  · rw [List.any_append]
    simp

/-- `addIfAbsent` never removes keywords already present. -/
theorem addIfAbsent_mono (ms : List MappingRow) (kw kw2 c : String)
    (h : ms.any (fun m => m.keyword = kw) = true) :
    (addIfAbsent ms kw2 c).any (fun m => m.keyword = kw) = true := by
  rw [addIfAbsent]
  split
  · exact h
  · rw [List.any_append]
    simp [h]

/-- `addIfAbsent` of a keyword already present is the identity. -/
theorem addIfAbsent_noop (ms : List MappingRow) (kw c : String)
    (h : ms.any (fun m => m.keyword = kw) = true) :
    addIfAbsent ms kw c = ms := by
  rw [addIfAbsent, if_pos h]

/-- Generic step: an `addIfAbsent` guarded by any condition preserves a
present keyword. -/
theorem ifStep_any (cond : Prop) [Decidable cond] (R : List MappingRow)
    (kw add c : String) (h : R.any (fun m => m.keyword = kw) = true) :
    (if cond then addIfAbsent R add c else R).any (fun m => m.keyword = kw) = true := by
  split
  · exact addIfAbsent_mono _ _ _ _ h
  · exact h

/-- Generic step: the learner's single-word match step preserves a
present keyword. -/
theorem matchFind_any (vw : List String) (category kw : String)
    (R : List MappingRow) (h : R.any (fun m => m.keyword = kw) = true) :
    (match vw.find? (fun x : String => 5 < x.data.length) with
      | some w => addIfAbsent R w category
      | none => R).any (fun m => m.keyword = kw) = true := by
  rcases hf : vw.find? (fun x : String => 5 < x.data.length) with _ | w
  · exact h
  · exact addIfAbsent_mono _ _ _ _ h

/-- The learner's rule-list update preserves any keyword already
present. -/
theorem ruleChain_mono (vw : List String) (category kw : String)
    (ms : List MappingRow) (h : ms.any (fun m => m.keyword = kw) = true) :
    (ruleChain vw category ms).any (fun m => m.keyword = kw) = true := by
  simp only [ruleChain]
  exact matchFind_any _ _ _ _ (ifStep_any _ _ _ _ _ (ifStep_any _ _ _ _ _ h))

/-- After a learner update with at least two vendor words, the 2-word
phrase is present. -/
theorem ruleChain_has2 (vw : List String) (category : String)
    (ms : List MappingRow) (h2 : 2 ≤ vw.length) :
    (ruleChain vw category ms).any
      (fun m => m.keyword = joinWordsStr (vw.take 2)) = true := by
  simp only [ruleChain]
  refine matchFind_any _ _ _ _ (ifStep_any _ _ _ _ _ ?_)
  rw [if_pos h2]
  exact addIfAbsent_has _ _ _

/-- After a learner update with at least three vendor words, the 3-word
phrase is present. -/
theorem ruleChain_has3 (vw : List String) (category : String)
    (ms : List MappingRow) (h3 : 3 ≤ vw.length) :
    (ruleChain vw category ms).any
      (fun m => m.keyword = joinWordsStr (vw.take 3)) = true := by
  simp only [ruleChain]
  refine matchFind_any _ _ _ _ ?_
  rw [if_pos h3]
  exact addIfAbsent_has _ _ _

/-- After a learner update whose single-word scan finds `w`, the word
`w` is present. -/
theorem ruleChain_hasW (vw : List String) (category : String)
    (ms : List MappingRow) (w : String)
    (hf : vw.find? (fun x => 5 < x.data.length) = some w) :
    (ruleChain vw category ms).any (fun m => m.keyword = w) = true := by
  simp only [ruleChain]
  rw [hf]
  exact addIfAbsent_has _ _ _

/-- A learner rule-list update on a list that already contains every
keyword it would add is the identity. -/
theorem ruleChain_noop (vw : List String) (category : String) (R : List MappingRow)
    (hp2 : 2 ≤ vw.length → R.any (fun m => m.keyword = joinWordsStr (vw.take 2)) = true)
    (hp3 : 3 ≤ vw.length → R.any (fun m => m.keyword = joinWordsStr (vw.take 3)) = true)
    (hw : ∀ w, vw.find? (fun x => 5 < x.data.length) = some w →
      R.any (fun m => m.keyword = w) = true) :
    ruleChain vw category R = R := by
  simp only [ruleChain]
  have e1 : (if 2 ≤ vw.length then
      addIfAbsent R (joinWordsStr (vw.take 2)) category else R) = R := by
    split
    · next h => exact addIfAbsent_noop _ _ _ (hp2 h)
    · rfl
  rw [e1]
  have e2 : (if 3 ≤ vw.length then
      addIfAbsent R (joinWordsStr (vw.take 3)) category else R) = R := by
    split
    · next h => exact addIfAbsent_noop _ _ _ (hp3 h)
    · rfl
  rw [e2]
  rcases hf : vw.find? (fun x => 5 < x.data.length) with _ | w
  · rw [hf]
  · rw [hf]
    exact addIfAbsent_noop _ _ _ (hw w hf)

/-- C8: the Feedback Learner is idempotent per `(description, category)`
pair.  Invoking it a second time with the identical pair, on the rule
list and vendor map produced by the first invocation, leaves the
rule-list size unchanged, because membership is checked before every
insert. -/
theorem learner_idempotent (description category : String)
    (mappings : List MappingRow) (vendor_to_cat : List (String × String)) :
    ((learn_from_user_feedback description category
        (learn_from_user_feedback description category mappings vendor_to_cat).1
        (learn_from_user_feedback description category mappings vendor_to_cat).2).1).length =
      ((learn_from_user_feedback description category mappings vendor_to_cat).1).length := by
  have hmain : ruleChain (vendorWords (splitWsStr (pyLowerStr description))) category
      (ruleChain (vendorWords (splitWsStr (pyLowerStr description))) category mappings) =
      ruleChain (vendorWords (splitWsStr (pyLowerStr description))) category mappings := by
    refine ruleChain_noop _ category _ ?_ ?_ ?_
    · intro h2
      exact ruleChain_has2 _ category mappings h2
    · intro h3
      exact ruleChain_has3 _ category mappings h3
    · intro w hf
      exact ruleChain_hasW _ category mappings w hf
  show (ruleChain (vendorWords (splitWsStr (pyLowerStr description))) category
      (ruleChain (vendorWords (splitWsStr (pyLowerStr description))) category mappings)).length =
    (ruleChain (vendorWords (splitWsStr (pyLowerStr description))) category mappings).length
  rw [hmain]

end ExpenseMap
